import Mathlib

/-!
Verification of the route-optimization repository (src/models.py, src/constraints.py,
src/genetic_algorithm.py, src/simulated_annealing.py) against its specification.

Shallow embedding conventions:
* Python floats are modeled as exact rationals (the claims under scrutiny are
  arithmetic identities and comparisons, stated over the idealized arithmetic).
* Python float infinity (used for the fitness of an empty route) is modeled by
  the top element of WithTop Rat; the code only ever compares fitness values
  with < and <=, and the WithTop order agrees with IEEE comparisons on +inf.
* datetime.time values are modeled by the Time structure below; Python compares
  time objects lexicographically by (hour, minute, second, microsecond), which
  coincides with comparing the mixed-radix key computed by Time.key.
* The distance matrix is modeled by a total function on index pairs: the code
  precomputes an entry for every pair of indices over the location list, so a
  lookup never takes the missing-pair default in any execution reachable from
  the claims (which only evaluate routes over in-range indices).
* Fallible construction (Location.__post_init__ raising ValueError) is modeled
  with Except.
-/

/-- Model of datetime.time as used by the repository: Python time objects carry
hour, minute, second and microsecond, with the validity bounds enforced by the
datetime module captured here with Fin fields. -/
structure Time where
  hour : Fin 24
  minute : Fin 60
  second : Fin 60
  microsecond : Fin 1000000
deriving DecidableEq, Repr

/-- Mixed-radix key of a time; comparing keys is equivalent to Python's
lexicographic comparison of (hour, minute, second, microsecond). -/
def Time.key (t : Time) : ℕ :=
  ((t.hour.val * 60 + t.minute.val) * 60 + t.second.val) * 1000000 + t.microsecond.val

/-- time_to_minutes from src/constraints.py: minutes since midnight,
ignoring seconds and microseconds. -/
def time_to_minutes (t : Time) : ℕ :=
  t.hour.val * 60 + t.minute.val

/-- Model of the Location dataclass from src/models.py.  The structure itself
does not enforce the time-window invariant; the validating constructor
mkLocation below models Location.__post_init__. -/
structure Location where
  id : ℤ
  name : String
  latitude : ℚ
  longitude : ℚ
  open_time : Option Time := none
  close_time : Option Time := none
  stay_duration : ℤ := 0
  priority : ℚ := 1
deriving DecidableEq

instance : Inhabited Location :=
  ⟨{ id := 0, name := "", latitude := 0, longitude := 0 }⟩

/-- Location construction including the __post_init__ validation from
src/models.py: when both open_time and close_time are present (time objects are
always truthy in Python 3.5+), construction fails unless open_time < close_time
in the lexicographic time order, i.e. unless the keys compare strictly. -/
def mkLocation (id : ℤ) (name : String) (latitude longitude : ℚ)
    (open_time close_time : Option Time) (stay_duration : ℤ) (priority : ℚ) :
    Except String Location :=
  match open_time, close_time with
  | some o, some c =>
      if c.key ≤ o.key then
        Except.error "location open time must be earlier than close time"
      else
        Except.ok { id := id, name := name, latitude := latitude,
                    longitude := longitude, open_time := some o,
                    close_time := some c, stay_duration := stay_duration,
                    priority := priority }
  | _, _ =>
      Except.ok { id := id, name := name, latitude := latitude,
                  longitude := longitude, open_time := open_time,
                  close_time := close_time, stay_duration := stay_duration,
                  priority := priority }

/-- Python float modulo with a positive modulus:
x % m = x - m * floor (x / m). -/
def qmod (x m : ℚ) : ℚ := x - m * ⌊x / m⌋

lemma qmod_nonneg (x m : ℚ) (hm : 0 < m) : 0 ≤ qmod x m := by
  unfold qmod
  have h1 : (⌊x / m⌋ : ℚ) ≤ x / m := Int.floor_le _
  have h2 : m * (⌊x / m⌋ : ℚ) ≤ m * (x / m) :=
    mul_le_mul_of_nonneg_left h1 hm.le
  have h3 : m * (x / m) = x := by
    field_simp
  linarith

lemma qmod_lt (x m : ℚ) (hm : 0 < m) : qmod x m < m := by
  unfold qmod
  have h1 : x / m < (⌊x / m⌋ : ℚ) + 1 := Int.lt_floor_add_one _
  have h2 : m * (x / m) < m * ((⌊x / m⌋ : ℚ) + 1) :=
    (mul_lt_mul_left hm).mpr h1
  have h3 : m * (x / m) = x := by
    field_simp
  nlinarith

lemma time_to_minutes_lt (t : Time) : time_to_minutes t < 1440 := by
  unfold time_to_minutes
  have h1 := t.hour.isLt
  have h2 := t.minute.isLt
  omega

/-- Minutes-of-day comparison is monotone with respect to the full
lexicographic time order: strictly fewer minutes forces a strictly smaller
key. -/
lemma key_lt_of_minutes_lt {a b : Time}
    (h : time_to_minutes a < time_to_minutes b) : a.key < b.key := by
  unfold time_to_minutes at h
  unfold Time.key
  have ha := a.second.isLt
  have hb := a.microsecond.isLt
  have hc := b.second.isLt
  have hd := b.microsecond.isLt
  nlinarith

lemma minutes_le_of_key_lt {a b : Time} (h : a.key < b.key) :
    time_to_minutes a ≤ time_to_minutes b := by
  by_contra hcon
  push_neg at hcon
  exact absurd (key_lt_of_minutes_lt hcon) (by omega)

/-- Model of ConstraintChecker state from src/constraints.py: the location
list, the precomputed distance table (as a total function over the index pairs
the table covers), the average speed and the start time translated to minutes
since midnight. -/
structure Checker where
  locations : List Location
  dist : ℕ → ℕ → ℚ
  avg_speed : ℚ
  start_time_minutes : ℕ

/-- Lookup self.locations[location_idx]; out-of-range access raises IndexError
in Python and is modeled with a default (claims only use in-range indices). -/
def Checker.loc (C : Checker) (i : ℕ) : Location := C.locations.getD i default

/-- DistanceMatrix.get_travel_time from src/distance_matrix.py:
distance / avg_speed * 60 minutes. -/
def Checker.travelTime (C : Checker) (i j : ℕ) : ℚ :=
  C.dist i j / C.avg_speed * 60

/-- ConstraintChecker.check_time_window from src/constraints.py, lines 62-91,
translated clause by clause.  Returns (satisfied, actual arrival minutes). -/
def Checker.checkTimeWindow (C : Checker) (location_idx : ℕ)
    (arrival_time : ℚ) : Bool × ℚ :=
  let location := C.loc location_idx
  match location.open_time, location.close_time with
  | some ot, some ct =>
      let actual_time_minutes : ℚ := (C.start_time_minutes : ℚ) + arrival_time
      let open_minutes : ℕ := time_to_minutes ot
      let close_minutes : ℕ :=
        if time_to_minutes ct < time_to_minutes ot then
          time_to_minutes ct + 24 * 60
        else time_to_minutes ct
      let actual_time_normalized : ℚ := qmod actual_time_minutes (24 * 60)
      if open_minutes ≤ close_minutes then
        if (open_minutes : ℚ) ≤ actual_time_normalized ∧
            actual_time_normalized ≤ (close_minutes : ℚ) then
          (true, arrival_time)
        else if actual_time_normalized < (open_minutes : ℚ) then
          (false, arrival_time + ((open_minutes : ℚ) - actual_time_normalized))
        else
          (false, arrival_time +
            ((24 * 60 - actual_time_normalized) + (open_minutes : ℚ)))
      else
        if (open_minutes : ℚ) ≤ actual_time_normalized ∨
            actual_time_normalized ≤ (close_minutes : ℚ) then
          (true, arrival_time)
        else
          (false, arrival_time + ((open_minutes : ℚ) - actual_time_normalized))
  | _, _ => (true, arrival_time)

/-- Model of the RouteSolution dataclass from src/models.py.  The fitness is a
float that can be +inf (empty route), hence WithTop. -/
structure RouteSolution where
  route : List ℕ
  total_distance : ℚ
  total_time : ℚ
  fitness : WithTop ℚ
  violations : ℕ
  arrival_times : List ℚ
deriving DecidableEq

/-- Loop accumulator of ConstraintChecker.evaluate_route: the local variables
total_distance, current_time, violations and arrival_times. -/
structure EvalAcc where
  total_distance : ℚ
  current_time : ℚ
  violations : ℕ
  arrival_times : List ℚ
deriving DecidableEq

/-- The for-loop of ConstraintChecker.evaluate_route (src/constraints.py,
lines 119-144): record the arrival time, run the window check, count a
violation when it fails, advance the clock to the adjusted arrival, add the
dwell, and when another location follows add the distance and travel time. -/
def evalLoop (C : Checker) : List ℕ → EvalAcc → EvalAcc
  | [], s => s
  | location_idx :: rest, s =>
      let ats := s.arrival_times ++ [s.current_time]
      let chk := C.checkTimeWindow location_idx s.current_time
      let v := if chk.1 then s.violations else s.violations + 1
      let t := chk.2 + ((C.loc location_idx).stay_duration : ℚ)
      match rest with
      | [] =>
          { total_distance := s.total_distance, current_time := t,
            violations := v, arrival_times := ats }
      | next_idx :: _ =>
          evalLoop C rest
            { total_distance := s.total_distance + C.dist location_idx next_idx,
              current_time := t + C.travelTime location_idx next_idx,
              violations := v, arrival_times := ats }

/-- ConstraintChecker.evaluate_route from src/constraints.py, lines 103-158:
the empty route yields distance 0, time 0, fitness +inf, no violations;
otherwise the loop above runs from clock 0 and the fitness is
total_distance + violations * 1000. -/
def evaluateRoute (C : Checker) (route : List ℕ) : RouteSolution :=
  if route = [] then
    { route := [], total_distance := 0, total_time := 0, fitness := ⊤,
      violations := 0, arrival_times := [] }
  else
    let r := evalLoop C route
      { total_distance := 0, current_time := 0, violations := 0,
        arrival_times := [] }
    { route := route, total_distance := r.total_distance,
      total_time := r.current_time,
      fitness := ((r.total_distance + (r.violations : ℚ) * 1000 : ℚ) : WithTop ℚ),
      violations := r.violations, arrival_times := r.arrival_times }

/-- Specification-side recursion: sum of the distances of consecutive route
legs. -/
def distSpec (C : Checker) : List ℕ → ℚ
  | [] => 0
  | [_] => 0
  | i :: j :: rest => C.dist i j + distSpec C (j :: rest)

/-- Specification-side recursion: the final simulated clock value, obtained by
adjusting each arrival through the window check, adding the dwell, and adding
the travel time to the next stop; at the last stop the clock stops right after
the dwell. -/
def simClock (C : Checker) : List ℕ → ℚ → ℚ
  | [], t => t
  | [i], t => (C.checkTimeWindow i t).2 + ((C.loc i).stay_duration : ℚ)
  | i :: j :: rest, t =>
      simClock C (j :: rest)
        ((C.checkTimeWindow i t).2 + ((C.loc i).stay_duration : ℚ)
          + C.travelTime i j)

/-- Specification-side recursion: one violation per position whose first
arrival fails the window check. -/
def violSpec (C : Checker) : List ℕ → ℚ → ℕ
  | [], _ => 0
  | [i], t => if (C.checkTimeWindow i t).1 then 0 else 1
  | i :: j :: rest, t =>
      (if (C.checkTimeWindow i t).1 then 0 else 1)
        + violSpec C (j :: rest)
            ((C.checkTimeWindow i t).2 + ((C.loc i).stay_duration : ℚ)
              + C.travelTime i j)

/-- Specification-side recursion: the arrival time recorded at each position,
before any wait adjustment; the next arrival is the adjusted arrival plus
dwell plus travel. -/
def arrivalList (C : Checker) : List ℕ → ℚ → List ℚ
  | [], _ => []
  | [_], t => [t]
  | i :: j :: rest, t =>
      t :: arrivalList C (j :: rest)
        ((C.checkTimeWindow i t).2 + ((C.loc i).stay_duration : ℚ)
          + C.travelTime i j)

lemma evalLoop_nil (C : Checker) (s : EvalAcc) : evalLoop C [] s = s := rfl

lemma evalLoop_one (C : Checker) (i : ℕ) (s : EvalAcc) :
    evalLoop C [i] s =
      { total_distance := s.total_distance,
        current_time :=
          (C.checkTimeWindow i s.current_time).2 + ((C.loc i).stay_duration : ℚ),
        violations :=
          if (C.checkTimeWindow i s.current_time).1 then s.violations
          else s.violations + 1,
        arrival_times := s.arrival_times ++ [s.current_time] } := rfl

lemma evalLoop_cons (C : Checker) (i j : ℕ) (rest : List ℕ) (s : EvalAcc) :
    evalLoop C (i :: j :: rest) s =
      evalLoop C (j :: rest)
        { total_distance := s.total_distance + C.dist i j,
          current_time :=
            (C.checkTimeWindow i s.current_time).2
              + ((C.loc i).stay_duration : ℚ) + C.travelTime i j,
          violations :=
            if (C.checkTimeWindow i s.current_time).1 then s.violations
            else s.violations + 1,
          arrival_times := s.arrival_times ++ [s.current_time] } := rfl

/-- The evaluate_route loop computes exactly the four specification-side
recursions, for any starting accumulator. -/
lemma evalLoop_spec (C : Checker) :
    ∀ (route : List ℕ) (s : EvalAcc),
      evalLoop C route s =
        { total_distance := s.total_distance + distSpec C route,
          current_time := simClock C route s.current_time,
          violations := s.violations + violSpec C route s.current_time,
          arrival_times :=
            s.arrival_times ++ arrivalList C route s.current_time } := by
  intro route
  induction route with
  | nil =>
      intro s
      simp [evalLoop_nil, distSpec, simClock, violSpec, arrivalList]
  | cons i rest ih =>
      intro s
      cases rest with
      | nil =>
          rw [evalLoop_one]
          simp only [distSpec, simClock, violSpec, arrivalList, EvalAcc.mk.injEq]
          refine ⟨by ring, by trivial, by split <;> omega, by simp⟩
      | cons j rest2 =>
          rw [evalLoop_cons, ih]
          simp only [distSpec, simClock, violSpec, arrivalList, EvalAcc.mk.injEq]
          refine ⟨by ring, by trivial, by split <;> omega, by simp⟩

lemma arrivalList_length (C : Checker) :
    ∀ (route : List ℕ) (t : ℚ), (arrivalList C route t).length = route.length := by
  intro route
  induction route with
  | nil => intro t; rfl
  | cons i rest ih =>
      intro t
      cases rest with
      | nil => rfl
      | cons j rest2 => simp [arrivalList, ih]

lemma violSpec_eq_countP (C : Checker) :
    ∀ (route : List ℕ) (t : ℚ),
      violSpec C route t =
        (route.zip (arrivalList C route t)).countP
          (fun p => !(C.checkTimeWindow p.1 p.2).1) := by
  intro route
  induction route with
  | nil => intro t; rfl
  | cons i rest ih =>
      intro t
      cases rest with
      | nil =>
          cases hc : (C.checkTimeWindow i t).1 <;>
            simp [violSpec, arrivalList, List.countP_cons, hc]
      | cons j rest2 =>
          cases hc : (C.checkTimeWindow i t).1 <;>
            simp [violSpec, arrivalList, List.zip_cons_cons, List.countP_cons,
              hc, ih] <;> omega

/-- A concrete checker over a single unconstrained location, used by the
witness theorems. -/
def Ctriv : Checker :=
  { locations := [default], dist := fun _ _ => 0, avg_speed := 30,
    start_time_minutes := 540 }

/-- Claim C5: evaluate_route applied to the empty route returns total_distance
0, total_time 0, violations 0, fitness +infinity, and an empty arrival_times
sequence. -/
theorem c5_empty_route (C : Checker) :
    evaluateRoute C [] =
      { route := [], total_distance := 0, total_time := 0, fitness := ⊤,
        violations := 0, arrival_times := [] } := rfl

/-- Claim C2: for every non-empty route over in-range indices, the returned
solution satisfies fitness = total_distance + 1000 * violations exactly, and
total_time is the final simulated clock value after the last dwell (computed
by the independent recursion simClock starting from clock 0). -/
theorem c2_fitness_invariant (C : Checker) (route : List ℕ) (hne : route ≠ [])
    (hin : ∀ i ∈ route, i < C.locations.length) :
    (evaluateRoute C route).fitness =
      (((evaluateRoute C route).total_distance
        + 1000 * ((evaluateRoute C route).violations : ℚ) : ℚ) : WithTop ℚ) ∧
    (evaluateRoute C route).total_time = simClock C route 0 := by
  unfold evaluateRoute
  rw [if_neg hne]
  rw [evalLoop_spec]
  constructor
  · rw [WithTop.coe_eq_coe]
    push_cast
    ring
  · rfl

/-- Witness for claim C2 at a concrete checker and route. -/
theorem c2_fitness_invariant_witness :
    (evaluateRoute Ctriv [0]).fitness =
      (((evaluateRoute Ctriv [0]).total_distance
        + 1000 * ((evaluateRoute Ctriv [0]).violations : ℚ) : ℚ) : WithTop ℚ) ∧
    (evaluateRoute Ctriv [0]).total_time = simClock Ctriv [0] 0 :=
  c2_fitness_invariant Ctriv [0] (by decide) (by decide)

/-- Claim C3: every position of the route gets exactly one recorded arrival
time (recorded before any wait adjustment, the next arrival being the adjusted
arrival plus dwell plus travel, per the recursion arrivalList), and the
violation count is exactly the number of positions whose first-arrival window
check fails -- one per failing position, none counted twice, no position
skipped. -/
theorem c3_violation_accounting (C : Checker) (route : List ℕ)
    (hin : ∀ i ∈ route, i < C.locations.length) :
    (evaluateRoute C route).arrival_times.length = route.length ∧
    (evaluateRoute C route).arrival_times = arrivalList C route 0 ∧
    (evaluateRoute C route).violations =
      (route.zip (evaluateRoute C route).arrival_times).countP
        (fun p => !(C.checkTimeWindow p.1 p.2).1) := by
  by_cases hne : route = []
  · subst hne
    exact ⟨rfl, rfl, rfl⟩
  · unfold evaluateRoute
    rw [if_neg hne]
    rw [evalLoop_spec]
    refine ⟨?_, rfl, ?_⟩
    · simpa using arrivalList_length C route 0
    · simpa using violSpec_eq_countP C route 0

/-- Witness for claim C3 at a concrete checker and route. -/
theorem c3_violation_accounting_witness :
    (evaluateRoute Ctriv [0]).arrival_times.length = [0].length ∧
    (evaluateRoute Ctriv [0]).arrival_times = arrivalList Ctriv [0] 0 ∧
    (evaluateRoute Ctriv [0]).violations =
      (([0].zip (evaluateRoute Ctriv [0]).arrival_times).countP
        (fun p => !(Ctriv.checkTimeWindow p.1 p.2).1)) :=
  c3_violation_accounting Ctriv [0] (by decide)

lemma coe_1440 : ((24 : ℚ) * 60) = 1440 := by norm_num

/-- Claim C4: for a location with a non-spanning window (open_time strictly
before close_time in the full time order, both present), the check is
satisfied iff open <= normalized arrival <= close; otherwise the adjusted
arrival is the original arrival plus the minimal forward wait to the open
minute, wrapping to the next day when the normalized arrival is already past
close; and the adjusted arrival equals the original arrival exactly when
satisfied. -/
theorem c4_nonspanning_window (C : Checker) (i : ℕ) (ot ct : Time)
    (ho : (C.loc i).open_time = some ot) (hc : (C.loc i).close_time = some ct)
    (hlt : ot.key < ct.key) (arrival : ℚ) :
    ((C.checkTimeWindow i arrival).1 = true ↔
      ((time_to_minutes ot : ℚ) ≤
          qmod ((C.start_time_minutes : ℚ) + arrival) 1440 ∧
        qmod ((C.start_time_minutes : ℚ) + arrival) 1440 ≤
          (time_to_minutes ct : ℚ))) ∧
    ((C.checkTimeWindow i arrival).1 = true →
      (C.checkTimeWindow i arrival).2 = arrival) ∧
    ((C.checkTimeWindow i arrival).1 = false →
      (C.checkTimeWindow i arrival).2 = arrival +
        (if qmod ((C.start_time_minutes : ℚ) + arrival) 1440 <
            (time_to_minutes ot : ℚ) then
          (time_to_minutes ot : ℚ)
            - qmod ((C.start_time_minutes : ℚ) + arrival) 1440
        else
          (1440 - qmod ((C.start_time_minutes : ℚ) + arrival) 1440)
            + (time_to_minutes ot : ℚ))) ∧
    ((C.checkTimeWindow i arrival).2 = arrival ↔
      (C.checkTimeWindow i arrival).1 = true) := by
  have hmle : time_to_minutes ot ≤ time_to_minutes ct := minutes_le_of_key_lt hlt
  have hnb : ¬ (time_to_minutes ct < time_to_minutes ot) := by omega
  have h0 : (0 : ℚ) ≤ qmod ((C.start_time_minutes : ℚ) + arrival) 1440 :=
    qmod_nonneg _ _ (by norm_num)
  have h1 : qmod ((C.start_time_minutes : ℚ) + arrival) 1440 < 1440 :=
    qmod_lt _ _ (by norm_num)
  unfold Checker.checkTimeWindow
  simp only [ho, hc]
  rw [if_neg hnb]
  simp only [coe_1440]
  rw [if_pos hmle]
  set q := qmod ((C.start_time_minutes : ℚ) + arrival) 1440 with hq
  by_cases hsat : (time_to_minutes ot : ℚ) ≤ q ∧ q ≤ (time_to_minutes ct : ℚ)
  · rw [if_pos hsat]
    simp [hsat]
  · rw [if_neg hsat]
    by_cases hlo : q < (time_to_minutes ot : ℚ)
    · rw [if_pos hlo]
      simp only [hsat, hlo, if_pos hlo]
      constructor
      · simp
      refine ⟨by simp, by simp, ?_⟩
      constructor
      · intro habs
        exfalso
        have : (time_to_minutes ot : ℚ) - q = 0 := by linarith [habs]
        linarith
      · intro habs
        exact absurd habs (by simp)
    · rw [if_neg hlo]
      simp only [hsat, hlo, if_neg hlo]
      constructor
      · simp [hsat]
      refine ⟨by simp, by simp, ?_⟩
      constructor
      · intro habs
        exfalso
        have : (1440 - q) + (time_to_minutes ot : ℚ) = 0 := by linarith [habs]
        have hot : (0 : ℚ) ≤ (time_to_minutes ot : ℚ) := by positivity
        linarith
      · intro habs
        exact absurd habs (by simp)

/-- Witness for claim C4: window 09:00-17:00, start of day 09:00, arrival at
offset 0 is satisfied with no wait. -/
def t0900 : Time := ⟨⟨9, by norm_num⟩, ⟨0, by norm_num⟩, ⟨0, by norm_num⟩, ⟨0, by norm_num⟩⟩

/-- Concrete 17:00 time value. -/
def t1700 : Time := ⟨⟨17, by norm_num⟩, ⟨0, by norm_num⟩, ⟨0, by norm_num⟩, ⟨0, by norm_num⟩⟩

/-- Concrete location carrying the 09:00-17:00 window. -/
def dayLoc : Location :=
  { id := 0, name := "day", latitude := 0, longitude := 0,
    open_time := some t0900, close_time := some t1700,
    stay_duration := 0, priority := 1 }

/-- Checker over the 09:00-17:00 location with a 09:00 start of day. -/
def Cday : Checker :=
  { locations := [dayLoc], dist := fun _ _ => 0, avg_speed := 30,
    start_time_minutes := 540 }

/-- Witness for claim C4 at the concrete 09:00-17:00 window. -/
theorem c4_nonspanning_window_witness :
    ((Cday.checkTimeWindow 0 0).1 = true ↔
      ((time_to_minutes t0900 : ℚ) ≤
          qmod ((Cday.start_time_minutes : ℚ) + 0) 1440 ∧
        qmod ((Cday.start_time_minutes : ℚ) + 0) 1440 ≤
          (time_to_minutes t1700 : ℚ))) ∧
    ((Cday.checkTimeWindow 0 0).1 = true →
      (Cday.checkTimeWindow 0 0).2 = 0) ∧
    ((Cday.checkTimeWindow 0 0).1 = false →
      (Cday.checkTimeWindow 0 0).2 = 0 +
        (if qmod ((Cday.start_time_minutes : ℚ) + 0) 1440 <
            (time_to_minutes t0900 : ℚ) then
          (time_to_minutes t0900 : ℚ)
            - qmod ((Cday.start_time_minutes : ℚ) + 0) 1440
        else
          (1440 - qmod ((Cday.start_time_minutes : ℚ) + 0) 1440)
            + (time_to_minutes t0900 : ℚ))) ∧
    ((Cday.checkTimeWindow 0 0).2 = 0 ↔
      (Cday.checkTimeWindow 0 0).1 = true) :=
  c4_nonspanning_window Cday 0 t0900 t1700 rfl rfl (by decide) 0

/-- Concrete 22:00 time value. -/
def t2200 : Time := ⟨⟨22, by norm_num⟩, ⟨0, by norm_num⟩, ⟨0, by norm_num⟩, ⟨0, by norm_num⟩⟩

/-- Concrete 06:00 time value. -/
def t0600 : Time := ⟨⟨6, by norm_num⟩, ⟨0, by norm_num⟩, ⟨0, by norm_num⟩, ⟨0, by norm_num⟩⟩

/-- A location whose window spans midnight (22:00-06:00).  Such a location is
not constructible through mkLocation (see claim C10); the Location structure
itself can represent it, and Python dataclasses are mutable, so
check_time_window can still face it. -/
def spanLoc : Location :=
  { id := 0, name := "span", latitude := 0, longitude := 0,
    open_time := some t2200, close_time := some t0600,
    stay_duration := 0, priority := 1 }

/-- Checker over the midnight-spanning location, starting the day at
midnight so that the arrival offset equals the minutes-of-day. -/
def Cspan : Checker :=
  { locations := [spanLoc], dist := fun _ _ => 0, avg_speed := 30,
    start_time_minutes := 0 }

/-- Counterexample to claim C1: for the spanning window 22:00-06:00 and an
arrival normalizing to 02:00 (normalized arrival 120 <= close minute 360), the
claim asserts the check is satisfied with the arrival unchanged, but the code
returns not-satisfied: the earlier close_minutes += 1440 adjustment makes the
extended close bound at least 1440, so the non-spanning branch runs and only
normalized arrival >= open is ever accepted. -/
theorem c1_counterexample :
    time_to_minutes t0600 < time_to_minutes t2200 ∧
    (Cspan.loc 0).open_time = some t2200 ∧
    (Cspan.loc 0).close_time = some t0600 ∧
    qmod ((Cspan.start_time_minutes : ℚ) + 120) 1440 ≤
      (time_to_minutes t0600 : ℚ) ∧
    ¬ ((Cspan.checkTimeWindow 0 120).1 = true ∧
        (Cspan.checkTimeWindow 0 120).2 = 120) := by
  have hcheck : Cspan.checkTimeWindow 0 120 = (false, 1320) := by
    unfold Checker.checkTimeWindow
    norm_num [Cspan, Checker.loc, spanLoc, t2200, t0600, time_to_minutes, qmod]
  have hq : qmod ((Cspan.start_time_minutes : ℚ) + 120) 1440 = 120 := by
    norm_num [Cspan, qmod]
  refine ⟨by decide, rfl, rfl, ?_, ?_⟩
  · rw [hq]
    norm_num [time_to_minutes, t0600]
  · intro h
    rw [hcheck] at h
    exact absurd h.1 (by simp)

/-- Claim C1 as amended: for a location whose window spans midnight (close
minute strictly less than open minute, both bounds present), the check is
satisfied with the arrival unchanged if and only if the normalized arrival is
at least the open minute -- the "or at most the close minute" disjunct of the
original claim never applies, because the code extends the close bound by 1440
before branching; when not satisfied, the adjusted arrival is the original
arrival plus the forward wait to the open minute. -/
theorem c1_spanning_window_amended (C : Checker) (i : ℕ) (ot ct : Time)
    (ho : (C.loc i).open_time = some ot) (hc : (C.loc i).close_time = some ct)
    (hspan : time_to_minutes ct < time_to_minutes ot) (arrival : ℚ) :
    ((C.checkTimeWindow i arrival).1 = true ↔
      (time_to_minutes ot : ℚ) ≤
        qmod ((C.start_time_minutes : ℚ) + arrival) 1440) ∧
    ((C.checkTimeWindow i arrival).1 = true →
      (C.checkTimeWindow i arrival).2 = arrival) ∧
    ((C.checkTimeWindow i arrival).1 = false →
      (C.checkTimeWindow i arrival).2 = arrival +
        ((time_to_minutes ot : ℚ)
          - qmod ((C.start_time_minutes : ℚ) + arrival) 1440)) := by
  have h0 : (0 : ℚ) ≤ qmod ((C.start_time_minutes : ℚ) + arrival) 1440 :=
    qmod_nonneg _ _ (by norm_num)
  have h1 : qmod ((C.start_time_minutes : ℚ) + arrival) 1440 < 1440 :=
    qmod_lt _ _ (by norm_num)
  have hble : time_to_minutes ot ≤ time_to_minutes ct + 24 * 60 := by
    have := time_to_minutes_lt ot
    omega
  have hcle : qmod ((C.start_time_minutes : ℚ) + arrival) 1440 ≤
      ((time_to_minutes ct + 24 * 60 : ℕ) : ℚ) := by
    push_cast
    linarith
  unfold Checker.checkTimeWindow
  simp only [ho, hc]
  rw [if_pos hspan]
  simp only [coe_1440]
  rw [if_pos hble]
  set q := qmod ((C.start_time_minutes : ℚ) + arrival) 1440 with hq
  by_cases hsat : (time_to_minutes ot : ℚ) ≤ q
  · rw [if_pos ⟨hsat, hcle⟩]
    simp [hsat]
  · rw [if_neg (by intro hand; exact hsat hand.1)]
    rw [if_pos (by push_neg at hsat; exact hsat)]
    simp [hsat]

/-- Witness for the amended claim C1, at the example from the specification:
spanning window 22:00-06:00, arrival normalizing to 23:00 is satisfied with
no wait. -/
theorem c1_spanning_window_amended_witness :
    (((Cspan.checkTimeWindow 0 1380).1 = true ↔
      (time_to_minutes t2200 : ℚ) ≤
        qmod ((Cspan.start_time_minutes : ℚ) + 1380) 1440) ∧
    ((Cspan.checkTimeWindow 0 1380).1 = true →
      (Cspan.checkTimeWindow 0 1380).2 = 1380) ∧
    ((Cspan.checkTimeWindow 0 1380).1 = false →
      (Cspan.checkTimeWindow 0 1380).2 = 1380 +
        ((time_to_minutes t2200 : ℚ)
          - qmod ((Cspan.start_time_minutes : ℚ) + 1380) 1440))) :=
  c1_spanning_window_amended Cspan 0 t2200 t0600 rfl rfl (by decide) 1380

/-- Claim C9: constructing a Location with both open_time and close_time
present fails exactly when open_time is not strictly before close_time (in
the lexicographic time order, equivalently the key order); construction with
at most one of the two times present always succeeds. -/
theorem c9_location_construction (id : ℤ) (name : String) (lat lon : ℚ)
    (ot ct : Option Time) (stay : ℤ) (prio : ℚ) :
    (∀ o c, ot = some o → ct = some c →
      ((mkLocation id name lat lon ot ct stay prio).isOk = true ↔
        o.key < c.key)) ∧
    ((ot = none ∨ ct = none) →
      (mkLocation id name lat lon ot ct stay prio).isOk = true) := by
  constructor
  · intro o c ho hc
    subst ho
    subst hc
    simp only [mkLocation]
    split_ifs with h
    · simp only [Except.isOk, Except.toBool]
      constructor
      · intro habs
        exact absurd habs (by simp)
      · intro hlt
        omega
    · simp only [Except.isOk, Except.toBool]
      constructor
      · intro _
        omega
      · intro _
        trivial
  · intro h
    rcases h with h | h
    · subst h
      simp [mkLocation, Except.isOk, Except.toBool]
    · subst h
      cases ot <;> simp [mkLocation, Except.isOk, Except.toBool]

/-- Witness for claim C9: a 06:00-22:00 window is accepted. -/
theorem c9_location_construction_witness :
    (mkLocation 1 "w" 0 0 (some t0600) (some t2200) 0 1).isOk = true ↔
      t0600.key < t2200.key :=
  (c9_location_construction 1 "w" 0 0 (some t0600) (some t2200) 0 1).1
    t0600 t2200 rfl rfl

/-- Claim C10: every Location accepted by the constructor with both window
bounds present satisfies open_time < close_time, hence the close minute is
never smaller than the open minute, so the guard of the cross-midnight branch
of check_time_window (close_minutes < open_minutes) is false for every
location built through mkLocation: a midnight-spanning window cannot be
represented in a constructed Location. -/
theorem c10_constructed_never_spanning (id : ℤ) (name : String) (lat lon : ℚ)
    (ot ct : Option Time) (stay : ℤ) (prio : ℚ) (loc : Location)
    (hok : mkLocation id name lat lon ot ct stay prio = Except.ok loc)
    (o c : Time) (ho : loc.open_time = some o) (hc : loc.close_time = some c) :
    o.key < c.key ∧ ¬ (time_to_minutes c < time_to_minutes o) := by
  cases ot with
  | none =>
      simp only [mkLocation, Except.ok.injEq] at hok
      subst hok
      simp at ho
  | some o0 =>
      cases ct with
      | none =>
          simp only [mkLocation, Except.ok.injEq] at hok
          subst hok
          simp at hc
      | some c0 =>
          simp only [mkLocation] at hok
          by_cases h : c0.key ≤ o0.key
          · rw [if_pos h] at hok
            exact absurd hok (by simp)
          · rw [if_neg h] at hok
            simp only [Except.ok.injEq] at hok
            subst hok
            simp only [Option.some.injEq] at ho hc
            subst ho
            subst hc
            refine ⟨by omega, ?_⟩
            intro hmc
            exact absurd (key_lt_of_minutes_lt hmc) (by omega)

/-- Witness for claim C10 at a concretely constructed location. -/
theorem c10_constructed_never_spanning_witness :
    t0600.key < t2200.key ∧
      ¬ (time_to_minutes t2200 < time_to_minutes t0600) :=
  c10_constructed_never_spanning 1 "w" 0 0 (some t0600) (some t2200) 0 1
    { id := 1, name := "w", latitude := 0, longitude := 0,
      open_time := some t0600, close_time := some t2200,
      stay_duration := 0, priority := 1 }
    rfl t0600 t2200 rfl rfl

/-- Python simultaneous swap l[idx1], l[idx2] = l[idx2], l[idx1] on a copy.
Out-of-range indices would raise IndexError in Python and are modeled as a
no-op; all uses draw in-range indices via random.sample. -/
def swapPositions {α : Type} (l : List α) (idx1 idx2 : ℕ) : List α :=
  match l[idx1]?, l[idx2]? with
  | some a, some b => (l.set idx1 b).set idx2 a
  | _, _ => l

/-- GeneticAlgorithm.mutate from src/genetic_algorithm.py, lines 120-128:
with the mutation draw successful (doMutate models the event
random.random() <= mutation_rate), swap two sampled positions of a copy;
otherwise return the individual unchanged. -/
def mutate (doMutate : Bool) (idx1 idx2 : ℕ) (individual : List ℤ) : List ℤ :=
  if doMutate then swapPositions individual idx1 idx2 else individual

/-- SimulatedAnnealing.get_neighbor from src/simulated_annealing.py, lines
46-51: swap two sampled positions of a copy of the route. -/
def getNeighbor (route : List ℕ) (idx1 idx2 : ℕ) : List ℕ :=
  swapPositions route idx1 idx2

/-- The identity permutation 0..n-1 as the integer lists used by the genetic
operators (integers, because crossover uses the -1 marker). -/
def intRange (n : ℕ) : List ℤ := (List.range n).map Int.ofNat

/-- child = [-1] * len(parent); child[point1:point2+1] =
parent[point1:point2+1] (src/genetic_algorithm.py, lines 92-94). -/
def initChild (parent : List ℤ) (point1 point2 : ℕ) : List ℤ :=
  (List.range parent.length).map
    (fun k => if point1 ≤ k ∧ k ≤ point2 then parent.getD k (-1) else -1)

/-- The scan "while child[pos] != -1: pos += 1": first index at or after pos
holding the -1 marker; returns the length where Python would raise IndexError
(never reached in the uses below). -/
def findSlot (child : List ℤ) (pos : ℕ) : ℕ :=
  if h : pos < child.length then
    if child.get ⟨pos, h⟩ = -1 then pos else findSlot child (pos + 1)
  else pos
termination_by child.length - pos

/-- The fill loop "for gene in parent2: if gene not in child1: scan; place"
(src/genetic_algorithm.py, lines 96-101): the running pos persists across
genes. -/
def fillFrom : List ℤ → ℕ → List ℤ → List ℤ
  | child, _, [] => child
  | child, pos, g :: gs =>
      if g ∈ child then fillFrom child pos gs
      else
        fillFrom (child.set (findSlot child pos) g) (findSlot child pos) gs

/-- One ordered-crossover child: copy the segment from the first parent, then
fill the marker slots from the second parent in order. -/
def makeChild (point1 point2 : ℕ) (pa pb : List ℤ) : List ℤ :=
  fillFrom (initChild pa point1 point2) 0 pb

/-- GeneticAlgorithm.crossover from src/genetic_algorithm.py, lines 84-118:
with the crossover draw unsuccessful (doCross = false models
random.random() > crossover_rate), return copies of the parents; otherwise
order the two sampled cut points and build both children. -/
def crossover (doCross : Bool) (point1 point2 : ℕ)
    (parent1 parent2 : List ℤ) : List ℤ × List ℤ :=
  if !doCross then (parent1, parent2)
  else
    let p1 := if point1 > point2 then point2 else point1
    let p2 := if point1 > point2 then point1 else point2
    (makeChild p1 p2 parent1 parent2, makeChild p1 p2 parent2 parent1)

lemma cons_get_set_perm {α : Type} :
    ∀ (t : List α) (m : ℕ) (hm : m < t.length) (x : α),
      (t.get ⟨m, hm⟩ :: t.set m x).Perm (x :: t) := by
  intro t
  induction t with
  | nil =>
      intro m hm x
      exact absurd hm (by simp)
  | cons y s ih =>
      intro m hm x
      cases m with
      | zero =>
          simp only [List.get, List.set]
          exact List.Perm.swap x y s
      | succ k =>
          have hk : k < s.length := by
            simpa using hm
          simp only [List.get, List.set]
          refine List.Perm.trans (List.Perm.swap y _ _) ?_
          refine List.Perm.trans ((ih k hk x).cons y) ?_
          exact List.Perm.swap x y s

lemma set_set_perm {α : Type} :
    ∀ (l : List α) (i j : ℕ) (hij : i < j) (hj : j < l.length),
      ((l.set i (l.get ⟨j, hj⟩)).set j
        (l.get ⟨i, Nat.lt_trans hij hj⟩)).Perm l := by
  intro l
  induction l with
  | nil =>
      intro i j hij hj
      exact absurd hj (by simp)
  | cons x t ih =>
      intro i j hij hj
      cases i with
      | zero =>
          cases j with
          | zero => exact absurd hij (by omega)
          | succ k =>
              have hk : k < t.length := by
                simpa using hj
              simp only [List.get, List.set]
              exact cons_get_set_perm t k hk x
      | succ a =>
          cases j with
          | zero => exact absurd hij (by omega)
          | succ b =>
              have hab : a < b := by omega
              have hb : b < t.length := by
                simpa using hj
              simp only [List.get, List.set]
              exact (ih a b hab hb).cons x

lemma swapPositions_perm {α : Type} (l : List α) (i j : ℕ)
    (hi : i < l.length) (hj : j < l.length) (hij : i ≠ j) :
    (swapPositions l i j).Perm l := by
  unfold swapPositions
  rw [List.getElem?_eq_getElem hi, List.getElem?_eq_getElem hj]
  show ((l.set i (l[j])).set j (l[i])).Perm l
  rcases Nat.lt_or_ge i j with h | h
  · have := set_set_perm l i j h hj
    simpa [List.get_eq_getElem] using this
  · have hji : j < i := by omega
    rw [List.set_comm _ _ _ hij]
    have := set_set_perm l j i hji hi
    simpa [List.get_eq_getElem] using this

/-- When a marker exists at or after pos, the scan stops at the first marker
slot: pos <= findSlot, the slot holds -1, it is in bounds, and no index in
between holds -1. -/
lemma findSlot_spec (child : List ℤ) :
    ∀ (pos : ℕ),
      (∃ k, pos ≤ k ∧ ∃ (hk : k < child.length), child.get ⟨k, hk⟩ = -1) →
      pos ≤ findSlot child pos ∧
      ∃ (h : findSlot child pos < child.length),
        child.get ⟨findSlot child pos, h⟩ = -1 ∧
        ∀ i (hi : i < child.length), pos ≤ i → i < findSlot child pos →
          child.get ⟨i, hi⟩ ≠ -1 := by
  have H : ∀ (fuel pos : ℕ), child.length - pos ≤ fuel →
      (∃ k, pos ≤ k ∧ ∃ (hk : k < child.length), child.get ⟨k, hk⟩ = -1) →
      pos ≤ findSlot child pos ∧
      ∃ (h : findSlot child pos < child.length),
        child.get ⟨findSlot child pos, h⟩ = -1 ∧
        ∀ i (hi : i < child.length), pos ≤ i → i < findSlot child pos →
          child.get ⟨i, hi⟩ ≠ -1 := by
    intro fuel
    induction fuel with
    | zero =>
        intro pos hle hex
        obtain ⟨k, hpk, hk, _⟩ := hex
        omega
    | succ n ih =>
        intro pos hle hex
        obtain ⟨k, hpk, hk, hval⟩ := hex
        have hpos : pos < child.length := by omega
        rw [findSlot, dif_pos hpos]
        by_cases hmark : child.get ⟨pos, hpos⟩ = -1
        · rw [if_pos hmark]
          refine ⟨le_refl pos, hpos, hmark, ?_⟩
          intro i hi hpi hilt
          omega
        · rw [if_neg hmark]
          have hkp : pos + 1 ≤ k := by
            rcases Nat.eq_or_lt_of_le hpk with heq | hlt
            · subst heq
              exact absurd hval hmark
            · omega
          obtain ⟨h1, h2, h3, h4⟩ :=
            ih (pos + 1) (by omega) ⟨k, hkp, hk, hval⟩
          refine ⟨by omega, h2, h3, ?_⟩
          intro i hi hpi hilt
          rcases Nat.eq_or_lt_of_le hpi with heq | hlt2
          · subst heq
            exact hmark
          · exact h4 i hi (by omega) hilt
  intro pos hex
  exact H (child.length - pos) pos le_rfl hex

lemma marker_decomp (child : List ℤ) (q : ℕ) (hq : q < child.length)
    (hval : child.get ⟨q, hq⟩ = -1) :
    child = child.take q ++ (-1 : ℤ) :: child.drop (q + 1) := by
  conv_lhs => rw [← List.take_append_drop q child]
  congr 1
  rw [List.drop_eq_getElem_cons hq]
  congr 1

lemma set_decomp (child : List ℤ) (q : ℕ) (hq : q < child.length) (g : ℤ) :
    child.set q g = child.take q ++ g :: child.drop (q + 1) := by
  rw [List.set_eq_take_append_cons_drop, if_pos hq]

/-- Correctness of the crossover fill loop: when the genes are distinct
non-markers and the number of marker slots (all at or after the scan position)
matches the number of genes still missing from the child, the filled child is
a permutation of the non-marker entries plus the missing genes. -/
lemma fillFrom_perm :
    ∀ (gs : List ℤ) (child : List ℤ) (pos : ℕ),
      gs.Nodup →
      (∀ g ∈ gs, g ≠ -1) →
      (∀ i (hi : i < child.length), child.get ⟨i, hi⟩ = -1 → pos ≤ i) →
      child.count (-1) = (gs.filter (fun g => decide (g ∉ child))).length →
      (fillFrom child pos gs).Perm
        (child.filter (fun x => decide (x ≠ -1)) ++
          gs.filter (fun g => decide (g ∉ child))) := by
  intro gs
  induction gs with
  | nil =>
      intro child pos _ _ _ hcnt
      simp only [fillFrom, List.filter_nil, List.append_nil]
      have h0 : child.count (-1) = 0 := by simpa using hcnt
      have hny : (-1 : ℤ) ∉ child := List.count_eq_zero.mp h0
      have hself : child.filter (fun x => decide (x ≠ -1)) = child := by
        refine List.filter_eq_self.mpr ?_
        intro a ha
        simp only [decide_eq_true_eq]
        intro heq
        subst heq
        exact hny ha
      rw [hself]
  | cons g gs ih =>
      intro child pos hnd hmk hinv hcnt
      have hgm : g ≠ -1 := hmk g (List.mem_cons_self g gs)
      have hgnotin : g ∉ gs := (List.nodup_cons.mp hnd).1
      have hndtail : gs.Nodup := (List.nodup_cons.mp hnd).2
      have hmktail : ∀ x ∈ gs, x ≠ -1 :=
        fun x hx => hmk x (List.mem_cons_of_mem g hx)
      by_cases hg : g ∈ child
      · simp only [fillFrom]
        rw [if_pos hg]
        have hfeq : (g :: gs).filter (fun x => decide (x ∉ child)) =
            gs.filter (fun x => decide (x ∉ child)) := by
          simp [hg]
        rw [hfeq] at hcnt
        rw [hfeq]
        exact ih child pos hndtail hmktail hinv hcnt
      · simp only [fillFrom]
        rw [if_neg hg]
        have hfg : (g :: gs).filter (fun x => decide (x ∉ child)) =
            g :: gs.filter (fun x => decide (x ∉ child)) := by
          simp [hg]
        have hcnt1 : 0 < child.count (-1) := by
          rw [hcnt, hfg]
          simp
        have hmem : (-1 : ℤ) ∈ child := List.count_pos_iff.mp hcnt1
        have hex : ∃ k, pos ≤ k ∧
            ∃ (hk : k < child.length), child.get ⟨k, hk⟩ = -1 := by
          obtain ⟨k, hk, hkv⟩ := List.mem_iff_getElem.mp hmem
          have hkg : child.get ⟨k, hk⟩ = -1 := by
            simpa [List.get_eq_getElem] using hkv
          exact ⟨k, hinv k hk hkg, hk, hkg⟩
        obtain ⟨hqpos, hqlt, hqval, hqmin⟩ := findSlot_spec child pos hex
        set q := findSlot child pos with hqdef
        have hdec := marker_decomp child q hqlt hqval
        have hsetdec := set_decomp child q hqlt g
        have hlen2 : (child.set q g).length = child.length := by simp
        have hmem2 : ∀ x : ℤ, x ≠ -1 →
            (x ∈ child.set q g ↔ x ∈ child ∨ x = g) := by
          intro x hx
          rw [hsetdec]
          conv_rhs => rw [hdec]
          simp only [List.mem_append, List.mem_cons]
          constructor
          · rintro (h | h | h)
            · exact Or.inl (Or.inl h)
            · exact Or.inr h
            · exact Or.inl (Or.inr (Or.inr h))
          · rintro ((h | h | h) | h)
            · exact Or.inl h
            · exact absurd h hx
            · exact Or.inr (Or.inr h)
            · exact Or.inr (Or.inl h)
        have hinv2 : ∀ i (hi : i < (child.set q g).length),
            (child.set q g).get ⟨i, hi⟩ = -1 → q ≤ i := by
          intro i hi hival
          have hilen : i < child.length := by omega
          by_cases hiq : i = q
          · omega
          · have hne : q ≠ i := fun h => hiq h.symm
            have hgetset : (child.set q g).get ⟨i, hi⟩ =
                child.get ⟨i, hilen⟩ := by
              simp [List.get_eq_getElem, List.getElem_set_ne hne]
            rw [hgetset] at hival
            have hpi := hinv i hilen hival
            by_contra hqi
            push_neg at hqi
            exact (hqmin i hilen hpi hqi) hival
        have hQ2 : gs.filter (fun x => decide (x ∉ child.set q g)) =
            gs.filter (fun x => decide (x ∉ child)) := by
          refine List.filter_congr ?_
          intro x hx
          have hx1 : x ≠ -1 := hmktail x hx
          have hx2 : x ≠ g := fun h => hgnotin (h ▸ hx)
          simp only [decide_eq_decide]
          rw [hmem2 x hx1]
          constructor
          · intro hcon hxc
            exact hcon (Or.inl hxc)
          · intro hcon hor
            rcases hor with h | h
            · exact hcon h
            · exact hx2 h
        have hcntTake : child.count (-1) =
            (child.take q).count (-1) + (child.drop (q + 1)).count (-1) + 1 := by
          conv_lhs => rw [hdec]
          simp [List.count_append, List.count_cons]
          omega
        have hcntSet : (child.set q g).count (-1) =
            (child.take q).count (-1) + (child.drop (q + 1)).count (-1) := by
          rw [hsetdec]
          simp [List.count_append, List.count_cons, hgm]
        have hcnt2 : (child.set q g).count (-1) =
            (gs.filter (fun x => decide (x ∉ child.set q g))).length := by
          rw [hQ2, hcntSet]
          rw [hcnt, hfg, List.length_cons] at hcntTake
          omega
        have hperm := ih (child.set q g) q hndtail hmktail hinv2 hcnt2
        refine hperm.trans ?_
        have hfC2 : (child.set q g).filter (fun x => decide (x ≠ -1)) =
            (child.take q).filter (fun x => decide (x ≠ -1)) ++
              g :: (child.drop (q + 1)).filter (fun x => decide (x ≠ -1)) := by
          rw [hsetdec]
          simp [List.filter_append, List.filter_cons, hgm]
        have hfC : child.filter (fun x => decide (x ≠ -1)) =
            (child.take q).filter (fun x => decide (x ≠ -1)) ++
              (child.drop (q + 1)).filter (fun x => decide (x ≠ -1)) := by
          conv_lhs => rw [hdec]
          simp [List.filter_append, List.filter_cons]
        rw [hfC2, hfC, hQ2, hfg]
        refine List.Perm.trans
          (List.Perm.append_right _ List.perm_middle) ?_
        refine List.Perm.trans ?_ List.perm_middle.symm
        simp [List.append_assoc]

/-- The entry written at index k by the segment copy: the parent gene inside
the cut segment, the -1 marker outside it. -/
def segFun (parent : List ℤ) (point1 point2 : ℕ) (k : ℕ) : ℤ :=
  if point1 ≤ k ∧ k ≤ point2 then parent.getD k (-1) else -1

lemma initChild_eq_map (parent : List ℤ) (point1 point2 : ℕ) :
    initChild parent point1 point2 =
      (List.range parent.length).map (segFun parent point1 point2) := rfl

lemma mem_intRange (n : ℕ) (x : ℤ) : x ∈ intRange n ↔ 0 ≤ x ∧ x < n := by
  unfold intRange
  rw [List.mem_map]
  constructor
  · rintro ⟨a, ha, rfl⟩
    rw [List.mem_range] at ha
    simp only [Int.ofNat_eq_coe]
    omega
  · rintro ⟨h0, hn⟩
    refine ⟨x.toNat, ?_, ?_⟩
    · rw [List.mem_range]
      omega
    · simp only [Int.ofNat_eq_coe]
      omega

/-- Each ordered-crossover child is a permutation of 0..n-1, for parents that
are permutations of 0..n-1 and ordered in-range cut points. -/
lemma makeChild_perm (n : ℕ) (pa pb : List ℤ)
    (hpa : pa.Perm (intRange n)) (hpb : pb.Perm (intRange n))
    (p1 p2 : ℕ) (h12 : p1 ≤ p2) (h2n : p2 < n) :
    (makeChild p1 p2 pa pb).Perm (intRange n) := by
  have hlenIR : (intRange n).length = n := by
    unfold intRange
    rw [List.length_map, List.length_range]
  have hlenpa : pa.length = n := by rw [hpa.length_eq, hlenIR]
  have hndIR : (intRange n).Nodup :=
    List.Nodup.map
      (fun a b h => by
        simp only [Int.ofNat_eq_coe] at h
        omega)
      (List.nodup_range n)
  have hndpa : pa.Nodup := hpa.symm.nodup hndIR
  have hndpb : pb.Nodup := hpb.symm.nodup hndIR
  have hpane : ∀ x ∈ pa, x ≠ -1 := by
    intro x hx
    have hm := (hpa.mem_iff).mp hx
    rw [mem_intRange] at hm
    omega
  have hpbne : ∀ x ∈ pb, x ≠ -1 := by
    intro x hx
    have hm := (hpb.mem_iff).mp hx
    rw [mem_intRange] at hm
    omega
  have hsplit : List.range n =
      List.range' 0 p1 ++ List.range' p1 (p2 + 1 - p1) ++
        List.range' (p2 + 1) (n - (p2 + 1)) := by
    rw [List.range_eq_range']
    have e1 : List.range' p1 (p2 + 1 - p1) ++
        List.range' (p2 + 1) (n - (p2 + 1)) = List.range' p1 (n - p1) := by
      have h := List.range'_append p1 (p2 + 1 - p1) (n - (p2 + 1)) 1
      rw [show p1 + 1 * (p2 + 1 - p1) = p2 + 1 by omega] at h
      rw [show n - (p2 + 1) + (p2 + 1 - p1) = n - p1 by omega] at h
      exact h
    have e2 : List.range' 0 p1 ++ List.range' p1 (n - p1) =
        List.range' 0 n := by
      have h := List.range'_append 0 p1 (n - p1) 1
      rw [show 0 + 1 * p1 = p1 by omega] at h
      rw [show n - p1 + p1 = n by omega] at h
      exact h
    rw [List.append_assoc, e1, e2]
  have hA : ∀ x ∈ (List.range' 0 p1).map (segFun pa p1 p2), x = -1 := by
    intro x hx
    obtain ⟨k, hk, rfl⟩ := List.mem_map.mp hx
    have hklt : k < p1 := by
      obtain ⟨i, hi, hk2⟩ := List.mem_range'.mp hk
      omega
    simp [segFun, show ¬(p1 ≤ k ∧ k ≤ p2) by omega]
  have hC : ∀ x ∈ (List.range' (p2 + 1) (n - (p2 + 1))).map (segFun pa p1 p2),
      x = -1 := by
    intro x hx
    obtain ⟨k, hk, rfl⟩ := List.mem_map.mp hx
    have hkgt : p2 + 1 ≤ k := by
      obtain ⟨i, hi, hk2⟩ := List.mem_range'.mp hk
      omega
    simp [segFun, show ¬(p1 ≤ k ∧ k ≤ p2) by omega]
  have hB : (List.range' p1 (p2 + 1 - p1)).map (segFun pa p1 p2) =
      (List.range' p1 (p2 + 1 - p1)).map (fun k => pa.getD k (-1)) := by
    apply List.map_congr_left
    intro k hk
    have hkin : p1 ≤ k ∧ k ≤ p2 := by
      obtain ⟨i, hi, hk2⟩ := List.mem_range'.mp hk
      omega
    simp [segFun, hkin]
  have hSsub : ∀ x ∈ (List.range' p1 (p2 + 1 - p1)).map
      (fun k => pa.getD k (-1)), x ∈ pa := by
    intro x hx
    obtain ⟨k, hk, rfl⟩ := List.mem_map.mp hx
    have hkn : k < pa.length := by
      obtain ⟨i, hi, hk2⟩ := List.mem_range'.mp hk
      omega
    rw [List.getD_eq_getElem pa (-1) hkn]
    exact List.getElem_mem hkn
  have hSnd : ((List.range' p1 (p2 + 1 - p1)).map
      (fun k => pa.getD k (-1))).Nodup := by
    apply List.Nodup.map_on
    · intro x hx y hy hxy
      have hxn : x < pa.length := by
        obtain ⟨i, hi, h⟩ := List.mem_range'.mp hx
        omega
      have hyn : y < pa.length := by
        obtain ⟨i, hi, h⟩ := List.mem_range'.mp hy
        omega
      rw [List.getD_eq_getElem pa (-1) hxn,
        List.getD_eq_getElem pa (-1) hyn] at hxy
      have hinj := List.nodup_iff_injective_get.mp hndpa
      have hfin : (⟨x, hxn⟩ : Fin pa.length) = ⟨y, hyn⟩ := by
        apply hinj
        simpa [List.get_eq_getElem] using hxy
      simpa using hfin
    · exact List.nodup_range' p1 (p2 + 1 - p1)
  have hSlen : ((List.range' p1 (p2 + 1 - p1)).map
      (fun k => pa.getD k (-1))).length = p2 + 1 - p1 := by
    simp
  have hmemchild : ∀ x : ℤ, x ≠ -1 →
      (x ∈ initChild pa p1 p2 ↔
        x ∈ (List.range' p1 (p2 + 1 - p1)).map (fun k => pa.getD k (-1))) := by
    intro x hx
    rw [initChild_eq_map, hlenpa, hsplit, List.map_append, List.map_append, hB]
    simp only [List.mem_append]
    constructor
    · rintro ((h | h) | h)
      · exact absurd (hA x h) hx
      · exact h
      · exact absurd (hC x h) hx
    · intro h
      exact Or.inl (Or.inr h)
  have hScount : ((List.range' p1 (p2 + 1 - p1)).map
      (fun k => pa.getD k (-1))).count (-1) = 0 := by
    rw [List.count_eq_zero]
    intro hcon
    exact (hpane _ (hSsub _ hcon)) rfl
  have hAcount : ((List.range' 0 p1).map (segFun pa p1 p2)).count (-1) = p1 := by
    rw [List.count_eq_length.mpr (fun b hb => (hA b hb).symm)]
    simp
  have hCcount : ((List.range' (p2 + 1) (n - (p2 + 1))).map
      (segFun pa p1 p2)).count (-1) = n - (p2 + 1) := by
    rw [List.count_eq_length.mpr (fun b hb => (hC b hb).symm)]
    simp
  have hchildcount : (initChild pa p1 p2).count (-1) = p1 + (n - (p2 + 1)) := by
    rw [initChild_eq_map, hlenpa, hsplit, List.map_append, List.map_append, hB]
    rw [List.count_append, List.count_append, hAcount, hScount, hCcount]
    omega
  have hpbfilter : pb.filter (fun g => decide (g ∉ initChild pa p1 p2)) =
      pb.filter (fun g => decide (g ∉ (List.range' p1 (p2 + 1 - p1)).map
        (fun k => pa.getD k (-1)))) := by
    apply List.filter_congr
    intro x hx
    simp only [decide_eq_decide]
    rw [hmemchild x (hpbne x hx)]
  have hSsubIR : ∀ x ∈ (List.range' p1 (p2 + 1 - p1)).map
      (fun k => pa.getD k (-1)), x ∈ intRange n :=
    fun x hx => (hpa.mem_iff).mp (hSsub x hx)
  have hfpermS : ((intRange n).filter (fun x => decide
      (x ∈ (List.range' p1 (p2 + 1 - p1)).map (fun k => pa.getD k (-1))))).Perm
      ((List.range' p1 (p2 + 1 - p1)).map (fun k => pa.getD k (-1))) := by
    rw [List.perm_ext_iff_of_nodup (hndIR.filter _) hSnd]
    intro a
    simp only [List.mem_filter, decide_eq_true_eq]
    constructor
    · rintro ⟨_, h⟩
      exact h
    · intro h
      exact ⟨hSsubIR a h, h⟩
  have hnotfun : (fun x : ℤ => !decide
      (x ∈ (List.range' p1 (p2 + 1 - p1)).map (fun k => pa.getD k (-1)))) =
      (fun x => decide
        (x ∉ (List.range' p1 (p2 + 1 - p1)).map (fun k => pa.getD k (-1)))) := by
    funext x
    rw [decide_not]
  have hIRsplit := List.filter_append_perm (fun x => decide
    (x ∈ (List.range' p1 (p2 + 1 - p1)).map (fun k => pa.getD k (-1))))
    (intRange n)
  rw [hnotfun] at hIRsplit
  have hpbf_perm : (pb.filter (fun g => decide
      (g ∉ (List.range' p1 (p2 + 1 - p1)).map (fun k => pa.getD k (-1))))).Perm
      ((intRange n).filter (fun g => decide
        (g ∉ (List.range' p1 (p2 + 1 - p1)).map (fun k => pa.getD k (-1))))) :=
    hpb.filter _
  have hlen_split := hIRsplit.length_eq
  rw [List.length_append, hlenIR, hfpermS.length_eq, hSlen] at hlen_split
  have hcnt0 : (initChild pa p1 p2).count (-1) =
      (pb.filter (fun g => decide (g ∉ initChild pa p1 p2))).length := by
    rw [hpbfilter, hchildcount, hpbf_perm.length_eq]
    omega
  have hinv0 : ∀ i (hi : i < (initChild pa p1 p2).length),
      (initChild pa p1 p2).get ⟨i, hi⟩ = -1 → 0 ≤ i :=
    fun i _ _ => Nat.zero_le i
  have hfilterchild : (initChild pa p1 p2).filter (fun x => decide (x ≠ -1)) =
      (List.range' p1 (p2 + 1 - p1)).map (fun k => pa.getD k (-1)) := by
    rw [initChild_eq_map, hlenpa, hsplit, List.map_append, List.map_append, hB]
    rw [List.filter_append, List.filter_append]
    have hAf : ((List.range' 0 p1).map (segFun pa p1 p2)).filter
        (fun x => decide (x ≠ -1)) = [] := by
      rw [List.filter_eq_nil_iff]
      intro a ha
      simp [hA a ha]
    have hCf : ((List.range' (p2 + 1) (n - (p2 + 1))).map
        (segFun pa p1 p2)).filter (fun x => decide (x ≠ -1)) = [] := by
      rw [List.filter_eq_nil_iff]
      intro a ha
      simp [hC a ha]
    have hSf : ((List.range' p1 (p2 + 1 - p1)).map
        (fun k => pa.getD k (-1))).filter (fun x => decide (x ≠ -1)) =
        (List.range' p1 (p2 + 1 - p1)).map (fun k => pa.getD k (-1)) := by
      apply List.filter_eq_self.mpr
      intro a ha
      simpa using hpane a (hSsub a ha)
    rw [hAf, hCf, hSf]
    simp
  unfold makeChild
  have hmain := fillFrom_perm pb (initChild pa p1 p2) 0 hndpb hpbne hinv0 hcnt0
  refine hmain.trans ?_
  rw [hfilterchild, hpbfilter]
  refine List.Perm.trans (List.Perm.append hfpermS.symm hpbf_perm) ?_
  exact hIRsplit

/-- Claim C6: every search move operator preserves permutation validity.  For
parents that are permutations of 0..n-1 and any two in-range cut points, both
crossover children are permutations of 0..n-1 (on both the crossover and the
copy path); genetic mutation and the annealing neighbor move (swap of two
sampled distinct in-range positions) map permutations to permutations. -/
theorem c6_operators_preserve_permutation (n : ℕ)
    (parent1 parent2 : List ℤ)
    (hp1 : parent1.Perm (intRange n)) (hp2 : parent2.Perm (intRange n))
    (doCross : Bool) (point1 point2 : ℕ)
    (hpt1 : point1 < n) (hpt2 : point2 < n)
    (individual : List ℤ) (hind : individual.Perm (intRange n))
    (doMutate : Bool) (i1 i2 : ℕ) (hi1 : i1 < n) (hi2 : i2 < n) (hi12 : i1 ≠ i2)
    (route : List ℕ) (hroute : route.Perm (List.range n))
    (j1 j2 : ℕ) (hj1 : j1 < n) (hj2 : j2 < n) (hj12 : j1 ≠ j2) :
    (crossover doCross point1 point2 parent1 parent2).1.Perm (intRange n) ∧
    (crossover doCross point1 point2 parent1 parent2).2.Perm (intRange n) ∧
    (mutate doMutate i1 i2 individual).Perm (intRange n) ∧
    (getNeighbor route j1 j2).Perm (List.range n) := by
  have hlenIR : (intRange n).length = n := by
    unfold intRange
    rw [List.length_map, List.length_range]
  have hcross : (crossover doCross point1 point2 parent1 parent2).1.Perm
      (intRange n) ∧
      (crossover doCross point1 point2 parent1 parent2).2.Perm (intRange n) := by
    unfold crossover
    cases doCross with
    | false => exact ⟨hp1, hp2⟩
    | true =>
        simp only [Bool.not_true, Bool.false_eq_true, if_false]
        by_cases hgt : point1 > point2
        · rw [if_pos hgt, if_pos hgt]
          exact ⟨makeChild_perm n parent1 parent2 hp1 hp2 point2 point1
              (by omega) hpt1,
            makeChild_perm n parent2 parent1 hp2 hp1 point2 point1
              (by omega) hpt1⟩
        · rw [if_neg hgt, if_neg hgt]
          exact ⟨makeChild_perm n parent1 parent2 hp1 hp2 point1 point2
              (by omega) hpt2,
            makeChild_perm n parent2 parent1 hp2 hp1 point1 point2
              (by omega) hpt2⟩
  refine ⟨hcross.1, hcross.2, ?_, ?_⟩
  · unfold mutate
    cases doMutate with
    | false => exact hind
    | true =>
        simp only [if_true]
        have hlen : individual.length = n := by rw [hind.length_eq, hlenIR]
        exact (swapPositions_perm individual i1 i2 (by omega) (by omega)
          hi12).trans hind
  · unfold getNeighbor
    have hlen : route.length = n := by rw [hroute.length_eq, List.length_range]
    exact (swapPositions_perm route j1 j2 (by omega) (by omega) hj12).trans
      hroute

/-- Witness for claim C6 at n = 2 with concrete parents, cut points, and swap
positions. -/
theorem c6_operators_preserve_permutation_witness :
    (crossover true 0 0 [1, 0] [0, 1]).1.Perm (intRange 2) ∧
    (crossover true 0 0 [1, 0] [0, 1]).2.Perm (intRange 2) ∧
    (mutate true 0 1 [0, 1]).Perm (intRange 2) ∧
    (getNeighbor [1, 0] 0 1).Perm (List.range 2) :=
  c6_operators_preserve_permutation 2 [1, 0] [0, 1] (by decide) (by decide)
    true 0 0 (by decide) (by decide) [0, 1] (by decide) true 0 1 (by decide)
    (by decide) (by decide) [1, 0] (by decide) 0 1 (by decide) (by decide)
    (by decide)

/-- One iteration's randomness in SimulatedAnnealing.optimize: the two sampled
swap positions, plus the outcome bit of the comparison
acceptance_probability(...) > random.random() for a non-improving candidate.
acceptance_probability returns 1.0 for a strictly improving candidate, and
1.0 exceeds every draw of random.random() (which lies in [0,1)), so improving
candidates are always accepted; for the rest the probability is exp of a
float expression, and the claim quantifies over every sequence of random
draws, each of which induces one boolean outcome per iteration -- that
outcome is the accept field. -/
structure SADraw where
  idx1 : ℕ
  idx2 : ℕ
  accept : Bool

/-- The four loop variables of SimulatedAnnealing.optimize. -/
structure SAState where
  current_route : List ℕ
  current_solution : RouteSolution
  best_route : List ℕ
  best_solution : RouteSolution

/-- Lines 72-82 of src/simulated_annealing.py: generate the neighbor,
evaluate it, and install it as current when accepted. -/
def saAcceptStep (C : Checker) (d : SADraw) (s : SAState) : SAState :=
  if (evaluateRoute C (getNeighbor s.current_route d.idx1 d.idx2)).fitness <
      s.current_solution.fitness ∨ d.accept = true then
    { s with
      current_route := getNeighbor s.current_route d.idx1 d.idx2,
      current_solution :=
        evaluateRoute C (getNeighbor s.current_route d.idx1 d.idx2) }
  else s

/-- Lines 84-87 of src/simulated_annealing.py: replace the incumbent when the
current solution strictly improves on it. -/
def saBestUpdate (s : SAState) : SAState :=
  if s.current_solution.fitness < s.best_solution.fitness then
    { s with best_route := s.current_route,
             best_solution := s.current_solution }
  else s

/-- One inner iteration of SimulatedAnnealing.optimize. -/
def saStep (C : Checker) (d : SADraw) (s : SAState) : SAState :=
  saBestUpdate (saAcceptStep C d s)

/-- The inner for-loop: iterations_per_temp iterations, consuming draws
om cnt, om (cnt+1), ... in order. -/
def saInner (C : Checker) (om : ℕ → SADraw) : ℕ → ℕ → SAState → SAState
  | _, 0, s => s
  | cnt, k + 1, s => saInner C om (cnt + 1) k (saStep C (om cnt) s)

/-- The outer while-loop of SimulatedAnnealing.optimize: while the temperature
exceeds min_temperature, run iterations_per_temp inner iterations and multiply
the temperature by the cooling rate.  The loop is fueled; with the source
parameters (0 < rate < 1 and 0 < Tmin) the exit condition is reached after
finitely many coolings, and any sufficient fuel gives the same result because
the loop returns the state unchanged once the temperature is at or below the
minimum. -/
def saOuter (C : Checker) (om : ℕ → SADraw) (K : ℕ) (rate Tmin : ℚ) :
    ℕ → ℚ → ℕ → SAState → SAState
  | 0, _, _, s => s
  | fuel + 1, T, cnt, s =>
      if Tmin < T then
        saOuter C om K rate Tmin fuel (T * rate) (cnt + K)
          (saInner C om cnt K s)
      else s

/-- SimulatedAnnealing.optimize: start from the initial route (produced by a
random shuffle, supplied here as an oracle), record it as both current and
best, run the temperature loop, and return the best-ever solution. -/
def saOptimize (C : Checker) (om : ℕ → SADraw) (K : ℕ) (rate Tmin T0 : ℚ)
    (fuel : ℕ) (route0 : List ℕ) : RouteSolution :=
  (saOuter C om K rate Tmin fuel T0 0
    { current_route := route0, current_solution := evaluateRoute C route0,
      best_route := route0,
      best_solution := evaluateRoute C route0 }).best_solution

lemma saAcceptStep_best (C : Checker) (d : SADraw) (s : SAState) :
    (saAcceptStep C d s).best_solution = s.best_solution := by
  unfold saAcceptStep
  split <;> rfl

lemma saBestUpdate_fitness (s : SAState) :
    (saBestUpdate s).best_solution.fitness =
      min s.best_solution.fitness s.current_solution.fitness := by
  unfold saBestUpdate
  split_ifs with h
  · exact (min_eq_right h.le).symm
  · push_neg at h
    exact (min_eq_left h).symm

lemma saBestUpdate_current (s : SAState) :
    (saBestUpdate s).current_solution = s.current_solution := by
  unfold saBestUpdate
  split <;> rfl

lemma saStep_best_min (C : Checker) (d : SADraw) (s : SAState) :
    (saStep C d s).best_solution.fitness =
      min s.best_solution.fitness (saStep C d s).current_solution.fitness := by
  unfold saStep
  rw [saBestUpdate_fitness, saAcceptStep_best, saBestUpdate_current]

lemma saStep_best_le (C : Checker) (d : SADraw) (s : SAState) :
    (saStep C d s).best_solution.fitness ≤ s.best_solution.fitness := by
  rw [saStep_best_min]
  exact min_le_left _ _

lemma saStep_best_cases (C : Checker) (d : SADraw) (s : SAState) :
    (saStep C d s).best_solution = s.best_solution ∨
      (saStep C d s).best_solution.fitness < s.best_solution.fitness := by
  unfold saStep saBestUpdate
  split_ifs with h
  · right
    rw [saAcceptStep_best] at h
    simpa using h
  · left
    rw [saAcceptStep_best]

lemma saInner_best_le (C : Checker) (om : ℕ → SADraw) :
    ∀ (k cnt : ℕ) (s : SAState),
      (saInner C om cnt k s).best_solution.fitness ≤
        s.best_solution.fitness := by
  intro k
  induction k with
  | zero =>
      intro cnt s
      exact le_refl _
  | succ n ih =>
      intro cnt s
      exact le_trans (ih (cnt + 1) (saStep C (om cnt) s))
        (saStep_best_le C (om cnt) s)

lemma saOuter_best_le (C : Checker) (om : ℕ → SADraw) (K : ℕ)
    (rate Tmin : ℚ) :
    ∀ (fuel : ℕ) (T : ℚ) (cnt : ℕ) (s : SAState),
      (saOuter C om K rate Tmin fuel T cnt s).best_solution.fitness ≤
        s.best_solution.fitness := by
  intro fuel
  induction fuel with
  | zero =>
      intro T cnt s
      exact le_refl _
  | succ n ih =>
      intro T cnt s
      rw [saOuter]
      split_ifs with h
      · exact le_trans (ih (T * rate) (cnt + K) (saInner C om cnt K s))
          (saInner_best_le C om K cnt s)
      · exact le_refl _

/-- Claim C7: in the annealing search, for every draw sequence (swap positions
and acceptance outcomes), the best-ever fitness never increases: it decreases
at a step exactly when the current solution strictly improves on it (the
step-level incumbent is the minimum of the old incumbent and the new current
fitness), the whole remaining run never increases it, the outer loop stops as
soon as the temperature is at or below the minimum temperature, and optimize
returns the final state's best-ever solution. -/
theorem c7_annealing_incumbent (C : Checker) (om : ℕ → SADraw) (K : ℕ)
    (rate Tmin T0 T : ℚ) (fuel cnt : ℕ) (d : SADraw) (s : SAState)
    (route0 : List ℕ) :
    (saStep C d s).best_solution.fitness ≤ s.best_solution.fitness ∧
    ((saStep C d s).best_solution = s.best_solution ∨
      (saStep C d s).best_solution.fitness < s.best_solution.fitness) ∧
    (saStep C d s).best_solution.fitness =
      min s.best_solution.fitness (saStep C d s).current_solution.fitness ∧
    (saOuter C om K rate Tmin fuel T cnt s).best_solution.fitness ≤
      s.best_solution.fitness ∧
    (T ≤ Tmin → saOuter C om K rate Tmin (fuel + 1) T cnt s = s) ∧
    saOptimize C om K rate Tmin T0 fuel route0 =
      (saOuter C om K rate Tmin fuel T0 0
        { current_route := route0,
          current_solution := evaluateRoute C route0,
          best_route := route0,
          best_solution := evaluateRoute C route0 }).best_solution := by
  refine ⟨saStep_best_le C d s, saStep_best_cases C d s,
    saStep_best_min C d s, saOuter_best_le C om K rate Tmin fuel T cnt s,
    ?_, rfl⟩
  intro hT
  rw [saOuter, if_neg (not_lt.mpr hT)]

/-- Concrete annealing state over the trivial checker, for the witness. -/
def sTriv : SAState :=
  { current_route := [], current_solution := evaluateRoute Ctriv [],
    best_route := [], best_solution := evaluateRoute Ctriv [] }

/-- Witness for claim C7: with the temperature already at the minimum, the
outer loop returns the state unchanged (so optimize returns its best-ever
solution). -/
theorem c7_annealing_incumbent_witness :
    saOuter Ctriv (fun _ => ⟨0, 1, false⟩) 1 (1 / 2) 1 (1 + 1) 1 0 sTriv =
      sTriv :=
  (c7_annealing_incumbent Ctriv (fun _ => ⟨0, 1, false⟩) 1 (1 / 2) 1 5 1 1 0
    ⟨0, 1, false⟩ sTriv []).2.2.2.2.1 (by norm_num)

/-- GeneticAlgorithm.fitness: evaluate the individual and read its fitness. -/
def fitnessOf (C : Checker) (individual : List ℕ) : WithTop ℚ :=
  (evaluateRoute C individual).fitness

/-- GeneticAlgorithm.rank_population (src/genetic_algorithm.py, lines 60-63):
pair every individual with its fitness and sort ascending by fitness. -/
def rankPopulation (C : Checker) (population : List (List ℕ)) :
    List (WithTop ℚ × List ℕ) :=
  (population.map (fun individual => (fitnessOf C individual, individual))).mergeSort
    (fun a b => decide (a.1 ≤ b.1))

/-- The two incumbent variables of GeneticAlgorithm.optimize: best_solution
(initially None) and best_fitness (initially float infinity). -/
structure GAIncumbent where
  best_solution : Option RouteSolution
  best_fitness : WithTop ℚ

/-- The sequence of populations: gaPop g is the population at the start of
generation g, and each generation applies evolve (whose selection, crossover
and mutation draws are absorbed into the oracle evolveF, indexed by the
generation number; the claim quantifies over every draw sequence, i.e. over
every such oracle). -/
def gaPop (evolveF : ℕ → List (List ℕ) → List (List ℕ))
    (pop0 : List (List ℕ)) : ℕ → List (List ℕ)
  | 0 => pop0
  | g + 1 => evolveF g (gaPop evolveF pop0 g)

/-- The generation loop of GeneticAlgorithm.optimize (src/genetic_algorithm.py,
lines 159-185): evolve, rank, and replace the incumbent when the generation's
best fitness strictly improves on it (re-evaluating the best individual, as
the source does).  ranked[0] on an empty ranking would raise IndexError in
Python; modeled with a default pair whose infinite fitness never wins the
strict comparison (the claims only use nonempty populations). -/
def gaLoop (C : Checker) (evolveF : ℕ → List (List ℕ) → List (List ℕ)) :
    ℕ → ℕ → List (List ℕ) → GAIncumbent → List (List ℕ) × GAIncumbent
  | _, 0, population, b => (population, b)
  | g, rem + 1, population, b =>
      let population2 := evolveF g population
      let top := (rankPopulation C population2).headD (⊤, [])
      if top.1 < b.best_fitness then
        gaLoop C evolveF (g + 1) rem population2
          ⟨some (evaluateRoute C top.2), top.1⟩
      else
        gaLoop C evolveF (g + 1) rem population2 b

/-- GeneticAlgorithm.optimize: run the generation loop from the initial
population with an empty incumbent, then return best_solution if it was ever
set, else evaluate the first individual of the final population
(population[0] raises IndexError on an empty population in Python; modeled
with a default, unused by the claims). -/
def gaOptimize (C : Checker) (evolveF : ℕ → List (List ℕ) → List (List ℕ))
    (generations : ℕ) (pop0 : List (List ℕ)) : RouteSolution :=
  match (gaLoop C evolveF 0 generations pop0 ⟨none, ⊤⟩).2.best_solution with
  | some sol => sol
  | none =>
      evaluateRoute C ((gaLoop C evolveF 0 generations pop0 ⟨none, ⊤⟩).1.headD [])

/-- The best (minimum) fitness in a population, folded with the infinite
neutral element. -/
def popBestFit (C : Checker) (population : List (List ℕ)) : WithTop ℚ :=
  (population.map (fitnessOf C)).foldr min ⊤

lemma foldr_min_le {l : List (WithTop ℚ)} {x : WithTop ℚ} (hx : x ∈ l) :
    l.foldr min ⊤ ≤ x := by
  induction l with
  | nil => exact absurd hx (by simp)
  | cons y t ih =>
      rcases List.mem_cons.mp hx with h | h
      · subst h
        exact min_le_left _ _
      · exact le_trans (min_le_right _ _) (ih h)

lemma le_foldr_min {l : List (WithTop ℚ)} {x : WithTop ℚ}
    (h : ∀ y ∈ l, x ≤ y) : x ≤ l.foldr min ⊤ := by
  induction l with
  | nil => exact le_top
  | cons y t ih =>
      refine le_min (h y (List.mem_cons_self y t)) ?_
      exact ih (fun z hz => h z (List.mem_cons_of_mem y hz))

lemma foldr_min_eq_top {l : List (WithTop ℚ)} (h : l.foldr min ⊤ = ⊤) :
    ∀ x ∈ l, x = ⊤ := by
  intro x hx
  have := foldr_min_le hx
  rw [h] at this
  exact top_le_iff.mp this

/-- The head of the ranked population is a pair (fitness, individual) whose
fitness is the minimum fitness of the population. -/
lemma rankPopulation_head (C : Checker) (pop : List (List ℕ))
    (hne : pop ≠ []) :
    ∃ ind, (rankPopulation C pop).headD (⊤, []) = (fitnessOf C ind, ind) ∧
      fitnessOf C ind = popBestFit C pop := by
  have htrans : ∀ (a b c : WithTop ℚ × List ℕ),
      decide (a.1 ≤ b.1) = true → decide (b.1 ≤ c.1) = true →
      decide (a.1 ≤ c.1) = true := by
    intro a b c hab hbc
    simp only [decide_eq_true_eq] at hab hbc ⊢
    exact le_trans hab hbc
  have htotal : ∀ (a b : WithTop ℚ × List ℕ),
      (decide (a.1 ≤ b.1) || decide (b.1 ≤ a.1)) = true := by
    intro a b
    rcases le_total a.1 b.1 with h | h <;> simp [h]
  have hlen : (rankPopulation C pop).length = pop.length := by
    unfold rankPopulation
    rw [(List.mergeSort_perm _ _).length_eq, List.length_map]
  have hne2 : rankPopulation C pop ≠ [] := by
    intro hcon
    apply hne
    rw [hcon] at hlen
    exact List.length_eq_zero.mp hlen.symm
  obtain ⟨hd, tl, heq⟩ := List.exists_cons_of_ne_nil hne2
  have hmem : hd ∈ rankPopulation C pop := by
    rw [heq]
    exact List.mem_cons_self hd tl
  have hmem2 : hd ∈ pop.map
      (fun individual => (fitnessOf C individual, individual)) :=
    ((List.mergeSort_perm _ _).mem_iff).mp hmem
  obtain ⟨ind, hindmem, hindeq⟩ := List.mem_map.mp hmem2
  have hsorted : (rankPopulation C pop).Pairwise
      (fun a b => decide (a.1 ≤ b.1) = true) := by
    unfold rankPopulation
    exact List.sorted_mergeSort htrans htotal _
  rw [heq] at hsorted
  have hhd := (List.pairwise_cons.mp hsorted).1
  refine ⟨ind, ?_, ?_⟩
  · rw [heq]
    rw [List.headD_cons]
    exact hindeq.symm
  · apply le_antisymm
    · apply le_foldr_min
      intro y hy
      obtain ⟨i2, hi2mem, rfl⟩ := List.mem_map.mp hy
      have hpair : (fitnessOf C i2, i2) ∈ rankPopulation C pop :=
        ((List.mergeSort_perm _ _).mem_iff).mpr
          (List.mem_map.mpr ⟨i2, hi2mem, rfl⟩)
      rw [heq] at hpair
      rcases List.mem_cons.mp hpair with h | h
      · have : fitnessOf C i2 = fitnessOf C ind :=
          congrArg Prod.fst (h.trans hindeq.symm)
        rw [this]
      · have hle := hhd _ h
        simp only [decide_eq_true_eq] at hle
        rw [← hindeq] at hle
        exact hle
    · apply foldr_min_le
      exact List.mem_map.mpr ⟨ind, hindmem, rfl⟩

/-- The incumbent pair is either still unset with infinite fitness, or set to
a solution carrying exactly the recorded fitness. -/
def gaInv (b : GAIncumbent) : Prop :=
  (b.best_solution = none ∧ b.best_fitness = ⊤) ∨
  (∃ sol, b.best_solution = some sol ∧ sol.fitness = b.best_fitness)

/-- Through the generation loop, the final population is the evolved sequence
and the incumbent fitness is the minimum of the starting incumbent and every
processed generation's best population fitness. -/
lemma gaLoop_spec (C : Checker) (evolveF : ℕ → List (List ℕ) → List (List ℕ))
    (pop0 : List (List ℕ)) :
    ∀ (rem g : ℕ) (b : GAIncumbent),
      (∀ j, g ≤ j → j < g + rem → gaPop evolveF pop0 (j + 1) ≠ []) →
      gaInv b →
      (gaLoop C evolveF g rem (gaPop evolveF pop0 g) b).1 =
        gaPop evolveF pop0 (g + rem) ∧
      gaInv (gaLoop C evolveF g rem (gaPop evolveF pop0 g) b).2 ∧
      (gaLoop C evolveF g rem (gaPop evolveF pop0 g) b).2.best_fitness =
        min b.best_fitness
          (((List.range' g rem).map
            (fun j => popBestFit C (gaPop evolveF pop0 (j + 1)))).foldr
              min ⊤) := by
  intro rem
  induction rem with
  | zero =>
      intro g b _ hinv
      refine ⟨rfl, hinv, ?_⟩
      simp [gaLoop, List.range']
  | succ rem ih =>
      intro g b hne hinv
      have hne1 : gaPop evolveF pop0 (g + 1) ≠ [] :=
        hne g (le_refl g) (by omega)
      obtain ⟨ind, htop, hbest⟩ :=
        rankPopulation_head C (gaPop evolveF pop0 (g + 1)) hne1
      have hpop : evolveF g (gaPop evolveF pop0 g) =
          gaPop evolveF pop0 (g + 1) := rfl
      rw [gaLoop]
      simp only [hpop, htop]
      by_cases hlt : fitnessOf C ind < b.best_fitness
      · rw [if_pos hlt]
        obtain ⟨h1, h2, h3⟩ := ih (g + 1)
          ⟨some (evaluateRoute C ind), fitnessOf C ind⟩
          (fun j hj1 hj2 => hne j (by omega) (by omega))
          (Or.inr ⟨evaluateRoute C ind, rfl, rfl⟩)
        refine ⟨?_, h2, ?_⟩
        · rw [h1]
          congr 1
          omega
        · rw [h3, List.range'_succ, List.map_cons, List.foldr_cons, ← hbest]
          have hle : min (fitnessOf C ind)
              (((List.range' (g + 1) rem).map
                (fun j => popBestFit C (gaPop evolveF pop0 (j + 1)))).foldr
                  min ⊤) ≤ b.best_fitness :=
            le_trans (min_le_left _ _) hlt.le
          rw [min_eq_right hle]
      · rw [if_neg hlt]
        obtain ⟨h1, h2, h3⟩ := ih (g + 1) b
          (fun j hj1 hj2 => hne j (by omega) (by omega)) hinv
        refine ⟨?_, h2, ?_⟩
        · rw [h1]
          congr 1
          omega
        · rw [h3, List.range'_succ, List.map_cons, List.foldr_cons, ← hbest]
          push_neg at hlt
          rw [← min_assoc, min_eq_left hlt]

/-- Claim C8: for every draw sequence (every evolve oracle), the genetic
optimize returns the best-ever solution across all generations: the fitness
of the returned solution equals the minimum, over the G generations, of the
best fitness in that generation's population. -/
theorem c8_genetic_returns_best_ever (C : Checker)
    (evolveF : ℕ → List (List ℕ) → List (List ℕ)) (pop0 : List (List ℕ))
    (G : ℕ) (hG : 1 ≤ G)
    (hne : ∀ g, g < G → gaPop evolveF pop0 (g + 1) ≠ []) :
    (gaOptimize C evolveF G pop0).fitness =
      ((List.range G).map
        (fun g => popBestFit C (gaPop evolveF pop0 (g + 1)))).foldr min ⊤ := by
  obtain ⟨h1, h2, h3⟩ := gaLoop_spec C evolveF pop0 G 0 ⟨none, ⊤⟩
    (fun j hj1 hj2 => hne j (by omega)) (Or.inl ⟨rfl, rfl⟩)
  rw [show gaPop evolveF pop0 0 = pop0 from rfl] at h1 h2 h3
  rw [min_eq_right le_top, ← List.range_eq_range'] at h3
  unfold gaOptimize
  rcases h2 with ⟨hnone, htop⟩ | ⟨sol, hsome, hfit⟩
  · rw [hnone]
    show (evaluateRoute C
      ((gaLoop C evolveF 0 G pop0 ⟨none, ⊤⟩).1.headD [])).fitness = _
    have hfold : ((List.range G).map
        (fun g => popBestFit C (gaPop evolveF pop0 (g + 1)))).foldr min ⊤ =
        ⊤ := by
      rw [← h3]
      exact htop
    have hGne : gaPop evolveF pop0 G ≠ [] := by
      have h := hne (G - 1) (by omega)
      rw [show G - 1 + 1 = G by omega] at h
      exact h
    obtain ⟨hd, tl, hcons⟩ := List.exists_cons_of_ne_nil hGne
    rw [h1, Nat.zero_add, hcons, List.headD_cons]
    have hbf : popBestFit C (gaPop evolveF pop0 G) = ⊤ := by
      apply foldr_min_eq_top hfold
      refine List.mem_map.mpr ⟨G - 1, ?_, ?_⟩
      · rw [List.mem_range]
        omega
      · rw [show G - 1 + 1 = G by omega]
    have hhd : fitnessOf C hd = ⊤ := by
      apply top_le_iff.mp
      rw [← hbf]
      apply foldr_min_le
      exact List.mem_map.mpr
        ⟨hd, by rw [hcons]; exact List.mem_cons_self hd tl, rfl⟩
    rw [hfold]
    exact hhd
  · rw [hsome]
    show sol.fitness = _
    rw [hfit]
    exact h3

/-- Witness for claim C8: one generation over a single-individual population
with the identity evolve oracle. -/
theorem c8_genetic_returns_best_ever_witness :
    (gaOptimize Ctriv (fun _ p => p) 1 [[0]]).fitness =
      ((List.range 1).map
        (fun g => popBestFit Ctriv (gaPop (fun _ p => p) [[0]] (g + 1)))).foldr
          min ⊤ :=
  c8_genetic_returns_best_ever Ctriv (fun _ p => p) [[0]] 1 (by decide)
    (by decide)
